import Mathlib

/-!
Verification of the resource-addressing and context-assembly core of a
conversational MCP client (src/core/cli_chat.py) against its mock resource
store (src/mcp_server.py).  Python strings are modelled as lists of
characters; fallible Python functions (those that can raise) return
`Except`.
-/

/-- Model of a Python string: a list of characters. -/
abbrev Str := List Char

/-- Conversion from Lean string literals into the model. -/
def str (s : String) : Str := s.data

/-- Decidable equality for `Except`, used to evaluate concrete runs. -/
instance {ε α : Type} [DecidableEq ε] [DecidableEq α] : DecidableEq (Except ε α) :=
  fun a b =>
    match a, b with
    | .ok x, .ok y =>
      if h : x = y then .isTrue (by rw [h]) else .isFalse (by intro he; cases he; exact h rfl)
    | .error x, .error y =>
      if h : x = y then .isTrue (by rw [h]) else .isFalse (by intro he; cases he; exact h rfl)
    | .ok _, .error _ => .isFalse (by intro he; cases he)
    | .error _, .ok _ => .isFalse (by intro he; cases he)

/-- Boolean success test for an `Except` value. -/
def isOkE {ε α : Type} : Except ε α → Bool
  | .ok _ => true
  | .error _ => false

theorem isOkE_iff {ε α : Type} (e : Except ε α) : isOkE e = true ↔ ∃ a, e = .ok a := by
  cases e with
  | ok a => simp [isOkE]
  | error e => simp [isOkE]

/-- Python `s.split(c, 1)`: cut a string at the first occurrence of a character.
Only called when the character is known to occur. -/
def splitFirst (c : Char) : Str → Str × Str
  | [] => ([], [])
  | x :: xs =>
    if x = c then ([], xs)
    else
      let p := splitFirst c xs
      (x :: p.1, p.2)

/-- Python `s.lstrip()`. -/
def trimLeft (s : Str) : Str := s.dropWhile Char.isWhitespace

/-- Python `s.rstrip()`. -/
def trimRight (s : Str) : Str := (s.reverse.dropWhile Char.isWhitespace).reverse

/-- Python `s.strip()`: drop leading and trailing whitespace. -/
def trim (s : Str) : Str := trimRight (trimLeft s)

/-- Message of the ValueError raised by `_split_resource_path`. -/
def invalidAddressMsg : Str :=
  str "Resource path must be \x27type/id\x27 or \x27type:id\x27, e.g., \x27meetings/987654321\x27."

/-- Model of `_split_resource_path` in src/core/cli_chat.py: accept `type/id`
or `type:id`, split at the first separator (slash checked first), strip both
parts, raise ValueError when no separator occurs. -/
def splitResourcePath (resource_path : Str) : Except Str (Str × Str) :=
  if '/' ∈ resource_path then
    let p := splitFirst '/' resource_path
    .ok (trim p.1, trim p.2)
  else if ':' ∈ resource_path then
    let p := splitFirst ':' resource_path
    .ok (trim p.1, trim p.2)
  else
    .error invalidAddressMsg

theorem splitFirst_append (c : Char) (a b : Str) (h : c ∉ a) :
    splitFirst c (a ++ c :: b) = (a, b) := by
  induction a with
  | nil => simp [splitFirst]
  | cons x xs ih =>
    have hx : ¬ x = c := by
      intro e
      exact h (e ▸ List.mem_cons_self x xs)
    have hxs : c ∉ xs := fun m => h (List.mem_cons_of_mem x m)
    simp [splitFirst, hx, ih hxs]

theorem splitResourcePath_slash (a b : Str) (h : '/' ∉ a) :
    splitResourcePath (a ++ '/' :: b) = .ok (trim a, trim b) := by
  have hm : '/' ∈ a ++ '/' :: b := by simp
  simp [splitResourcePath, hm, splitFirst_append '/' a b h]

theorem splitResourcePath_colon (a b : Str) (ha : '/' ∉ a) (hb : '/' ∉ b)
    (hc : ':' ∉ a) : splitResourcePath (a ++ ':' :: b) = .ok (trim a, trim b) := by
  have hm : '/' ∉ a ++ ':' :: b := by
    intro m
    rcases List.mem_append.mp m with m1 | m2
    · exact ha m1
    · rcases List.mem_cons.mp m2 with e | m3
      · exact absurd e (by decide)
      · exact hb m3
  have hm2 : ':' ∈ a ++ ':' :: b := by simp
  simp [splitResourcePath, hm, hm2, splitFirst_append ':' a b hc]

/-- C2: the Resource Address Parser maps `a/b` and `a:b` to the pair (`a`, `b`),
splits at the first occurrence of the separator with both parts stripped of
surrounding whitespace, and fails with the InvalidAddressError when neither
separator is present. -/
theorem c2_split_resource_path_spec :
    splitResourcePath (str "a/b") = .ok (str "a", str "b") ∧
    splitResourcePath (str "a:b") = .ok (str "a", str "b") ∧
    (∀ a b : Str, '/' ∉ a →
      splitResourcePath (a ++ '/' :: b) = .ok (trim a, trim b)) ∧
    (∀ a b : Str, '/' ∉ a → '/' ∉ b → ':' ∉ a →
      splitResourcePath (a ++ ':' :: b) = .ok (trim a, trim b)) ∧
    (∀ s : Str, '/' ∉ s → ':' ∉ s → splitResourcePath s = .error invalidAddressMsg) := by
  refine ⟨by decide, by decide, splitResourcePath_slash, splitResourcePath_colon, ?_⟩
  intro s h1 h2
  simp [splitResourcePath, h1, h2]

/-- C2 witness: the parser splits a concrete slash address and a concrete
colon address and rejects a concrete separator-free string. -/
theorem c2_witness :
    splitResourcePath (str "meetings/987654321") = .ok (str "meetings", str "987654321") ∧
    splitResourcePath (str "nosep") = .error invalidAddressMsg := by
  constructor
  · have h := c2_split_resource_path_spec.2.2.1 (str "meetings") (str "987654321") (by decide)
    exact (by decide : str "meetings/987654321" = str "meetings" ++ '/' :: str "987654321") ▸
      h.trans (by decide)
  · exact c2_split_resource_path_spec.2.2.2.2 (str "nosep") (by decide) (by decide)

theorem dropWhile_head_false (p : Char → Bool) (l : Str) :
    ∀ c, (l.dropWhile p).head? = some c → p c = false := by
  induction l with
  | nil => intro c h; simp [List.dropWhile] at h
  | cons x xs ih =>
    intro c h
    rw [List.dropWhile_cons] at h
    by_cases hx : p x = true
    · rw [if_pos hx] at h
      exact ih c h
    · rw [if_neg hx] at h
      simp at h
      rw [← h]
      exact Bool.not_eq_true (p x) |>.mp hx

theorem dropWhile_decomp (p : Char → Bool) (l : Str) :
    ∃ w, (∀ c ∈ w, p c = true) ∧ l = w ++ l.dropWhile p := by
  induction l with
  | nil => exact ⟨[], by simp, by simp⟩
  | cons x xs ih =>
    by_cases hx : p x = true
    · obtain ⟨w, hw, he⟩ := ih
      refine ⟨x :: w, ?_, ?_⟩
      · intro c hc
        rcases List.mem_cons.mp hc with e | m
        · rw [e]; exact hx
        · exact hw c m
      · rw [List.dropWhile_cons, if_pos hx]
        simpa using he
    · exact ⟨[], by simp, by simp [List.dropWhile_cons, hx]⟩

/-- `trimRight` is a prefix of its input; the removed suffix is all whitespace. -/
theorem trimRight_decomp (s : Str) :
    ∃ w, (∀ c ∈ w, c.isWhitespace = true) ∧ s = trimRight s ++ w := by
  obtain ⟨w, hw, he⟩ := dropWhile_decomp Char.isWhitespace s.reverse
  refine ⟨w.reverse, fun c hc => hw c (List.mem_reverse.mp hc), ?_⟩
  have := congrArg List.reverse he
  rw [List.reverse_reverse, List.reverse_append] at this
  simpa [trimRight] using this

/-- `trimLeft` is a suffix of its input; the removed head is all whitespace. -/
theorem trimLeft_decomp (s : Str) :
    ∃ w, (∀ c ∈ w, c.isWhitespace = true) ∧ s = w ++ trimLeft s :=
  dropWhile_decomp Char.isWhitespace s

theorem trim_head_not_ws (s : Str) : ∀ c, (trim s).head? = some c → c.isWhitespace = false := by
  intro c h
  obtain ⟨w, _, he⟩ := trimRight_decomp (trimLeft s)
  have hu : (trimLeft s).head? = some c := by
    rw [he]
    cases hx : trim s with
    | nil => rw [hx] at h; simp at h
    | cons y ys =>
      rw [hx] at h
      simp at h
      unfold trim at hx
      rw [hx]
      simp [h]
  exact dropWhile_head_false Char.isWhitespace s c hu

theorem trim_rev_head_not_ws (s : Str) :
    ∀ c, (trim s).reverse.head? = some c → c.isWhitespace = false := by
  intro c h
  have he : (trim s).reverse = (trimLeft s).reverse.dropWhile Char.isWhitespace := by
    unfold trim trimRight
    rw [List.reverse_reverse]
  rw [he] at h
  exact dropWhile_head_false Char.isWhitespace (trimLeft s).reverse c h

/-- Characters of `trim s` all come from `s`. -/
theorem trim_subset (s : Str) : ∀ c ∈ trim s, c ∈ s := by
  intro c hc
  obtain ⟨w1, _, he1⟩ := trimLeft_decomp s
  obtain ⟨w2, _, he2⟩ := trimRight_decomp (trimLeft s)
  have h1 : c ∈ trimLeft s := by
    rw [he2]
    exact List.mem_append.mpr (Or.inl hc)
  rw [he1]
  exact List.mem_append.mpr (Or.inr h1)

theorem trim_ne_nil_iff (s : Str) :
    trim s ≠ [] ↔ ∃ c ∈ s, c.isWhitespace = false := by
  constructor
  · intro h
    cases hx : trim s with
    | nil => exact absurd hx h
    | cons y ys =>
      refine ⟨y, trim_subset s y (by rw [hx]; exact List.mem_cons_self y ys), ?_⟩
      exact trim_head_not_ws s y (by rw [hx]; rfl)
  · rintro ⟨c, hc, hws⟩ hnil
    obtain ⟨w2, hw2, he2⟩ := trimRight_decomp (trimLeft s)
    have hu : trimLeft s = w2 := by
      unfold trim at hnil
      rw [hnil] at he2
      simpa using he2
    obtain ⟨w1, hw1, he1⟩ := trimLeft_decomp s
    have : c.isWhitespace = true := by
      rw [he1] at hc
      rcases List.mem_append.mp hc with m1 | m2
      · exact hw1 c m1
      · exact hw2 c (hu ▸ m2)
    rw [this] at hws
    cases hws

/-- Characters of `trim s` when `s` is whitespace-free: `trim` is the identity. -/
theorem trim_of_no_ws (s : Str) (h : ∀ c ∈ s, c.isWhitespace = false) : trim s = s := by
  have hL : trimLeft s = s := by
    unfold trimLeft
    cases s with
    | nil => rfl
    | cons x xs =>
      rw [List.dropWhile_cons, if_neg]
      rw [h x (List.mem_cons_self x xs)]
      simp
  have hR : trimRight s = s := by
    unfold trimRight
    cases hx : s.reverse with
    | nil => simpa using congrArg List.reverse hx
    | cons y ys =>
      rw [List.dropWhile_cons, if_neg, ← hx, List.reverse_reverse]
      have hy : y ∈ s := List.mem_reverse.mp (by rw [hx]; exact List.mem_cons_self y ys)
      rw [h y hy]
      simp
  unfold trim
  rw [hL, hR]

/-- C5 counterexample: the parser accepts `/b`, producing an address whose
type component is empty, so the non-emptiness invariant fails. -/
theorem c5_counterexample :
    splitResourcePath (str "/b") = .ok ([], str "b") := by decide

/-- C5 amended: both components of an accepted address are stripped of
leading and trailing whitespace but may be empty; for a slash address,
a component is non-empty exactly when its side of the first-separator split
contains a non-whitespace character. -/
theorem c5_parser_components (s t i : Str) (h : splitResourcePath s = .ok (t, i)) :
    (∀ c, t.head? = some c → c.isWhitespace = false) ∧
    (∀ c, t.reverse.head? = some c → c.isWhitespace = false) ∧
    (∀ c, i.head? = some c → c.isWhitespace = false) ∧
    (∀ c, i.reverse.head? = some c → c.isWhitespace = false) ∧
    (∀ a b : Str, '/' ∉ a →
      ((splitResourcePath (a ++ '/' :: b)).isOk ∧
        (trim a ≠ [] ↔ ∃ c ∈ a, c.isWhitespace = false))) := by
  have ht : ∃ x, t = trim x := by
    unfold splitResourcePath at h
    by_cases h1 : '/' ∈ s
    · rw [if_pos h1] at h
      exact ⟨(splitFirst '/' s).1, by cases h; rfl⟩
    · rw [if_neg h1] at h
      by_cases h2 : ':' ∈ s
      · rw [if_pos h2] at h
        exact ⟨(splitFirst ':' s).1, by cases h; rfl⟩
      · rw [if_neg h2] at h; cases h
  have hi : ∃ x, i = trim x := by
    unfold splitResourcePath at h
    by_cases h1 : '/' ∈ s
    · rw [if_pos h1] at h
      exact ⟨(splitFirst '/' s).2, by cases h; rfl⟩
    · rw [if_neg h1] at h
      by_cases h2 : ':' ∈ s
      · rw [if_pos h2] at h
        exact ⟨(splitFirst ':' s).2, by cases h; rfl⟩
      · rw [if_neg h2] at h; cases h
  obtain ⟨x, hx⟩ := ht
  obtain ⟨y, hy⟩ := hi
  subst hx; subst hy
  refine ⟨trim_head_not_ws x, trim_rev_head_not_ws x, trim_head_not_ws y,
    trim_rev_head_not_ws y, ?_⟩
  intro a b ha
  rw [splitResourcePath_slash a b ha]
  exact ⟨rfl, trim_ne_nil_iff a⟩

/-- C5 witness for the amended statement, at the address `meetings/987654321`. -/
theorem c5_witness :
    splitResourcePath (str "meetings/987654321") = .ok (str "meetings", str "987654321") ∧
    (∀ c, (str "meetings").head? = some c → c.isWhitespace = false) := by
  have h := c5_parser_components (str "meetings/987654321") (str "meetings")
    (str "987654321") (by decide)
  exact ⟨by decide, h.1⟩

/-- Helper for Python `str.split()` with no argument: accumulate the current
token (in reverse) while scanning. -/
def splitWsAux : Str → Str → List Str
  | [], acc => if acc = [] then [] else [acc.reverse]
  | c :: cs, acc =>
    if c.isWhitespace then
      if acc = [] then splitWsAux cs []
      else acc.reverse :: splitWsAux cs []
    else splitWsAux cs (c :: acc)

/-- Python `query.split()`: split on runs of whitespace, dropping empty tokens. -/
def splitWs (s : Str) : List Str := splitWsAux s []

theorem splitWsAux_tokens (s : Str) :
    ∀ acc, (∀ c ∈ acc, c.isWhitespace = false) →
    ∀ t ∈ splitWsAux s acc, t ≠ [] ∧ ∀ c ∈ t, c.isWhitespace = false := by
  induction s with
  | nil =>
    intro acc hacc t ht
    unfold splitWsAux at ht
    by_cases ha : acc = []
    · rw [if_pos ha] at ht; simp at ht
    · rw [if_neg ha] at ht
      simp at ht
      subst ht
      refine ⟨by simpa using ha, fun c hc => hacc c (List.mem_reverse.mp hc)⟩
  | cons x xs ih =>
    intro acc hacc t ht
    unfold splitWsAux at ht
    by_cases hx : x.isWhitespace = true
    · rw [if_pos hx] at ht
      by_cases ha : acc = []
      · rw [if_pos ha] at ht
        exact ih [] (by simp) t ht
      · rw [if_neg ha] at ht
        rcases List.mem_cons.mp ht with e | m
        · subst e
          exact ⟨by simpa using ha, fun c hc => hacc c (List.mem_reverse.mp hc)⟩
        · exact ih [] (by simp) t m
    · rw [if_neg hx] at ht
      refine ih (x :: acc) ?_ t ht
      intro c hc
      rcases List.mem_cons.mp hc with e | m
      · subst e; simpa using hx
      · exact hacc c m

/-- Every token produced by `splitWs` is non-empty and whitespace-free. -/
theorem splitWs_tokens (s : Str) :
    ∀ t ∈ splitWs s, t ≠ [] ∧ ∀ c ∈ t, c.isWhitespace = false :=
  splitWsAux_tokens s [] (by simp)

theorem splitWsAux_acc_ne (s : Str) :
    ∀ acc, acc ≠ [] → ∃ w rest, splitWsAux s acc = (acc.reverse ++ w) :: rest := by
  induction s with
  | nil =>
    intro acc ha
    exact ⟨[], [], by simp [splitWsAux, ha]⟩
  | cons x xs ih =>
    intro acc ha
    unfold splitWsAux
    by_cases hx : x.isWhitespace = true
    · rw [if_pos hx, if_neg ha]
      exact ⟨[], splitWsAux xs [], by simp⟩
    · rw [if_neg hx]
      obtain ⟨w, rest, hw⟩ := ih (x :: acc) (by simp)
      refine ⟨x :: w, rest, ?_⟩
      rw [hw]
      simp

/-- Python `query.startswith(c)` for a single-character argument. -/
def startsWithChar (c : Char) : Str → Bool
  | [] => false
  | x :: _ => x == c

/-- A query whose first character is the command marker tokenizes with that
marker at the head of the first token. -/
theorem splitWs_slash_head (q : Str) (h : startsWithChar '/' q = true) :
    ∃ w rest, splitWs q = ('/' :: w) :: rest := by
  cases q with
  | nil => simp [startsWithChar] at h
  | cons x cs =>
    have hx : x = '/' := by simpa [startsWithChar] using h
    subst hx
    unfold splitWs splitWsAux
    rw [if_neg (by decide)]
    obtain ⟨w, rest, hw⟩ := splitWsAux_acc_ne cs ['/'] (by simp)
    exact ⟨w, rest, by simpa using hw⟩

/-- Model of `CliChat._process_command` in src/core/cli_chat.py: for a
slash-prefixed query, the dispatched command name is the first token with
every slash removed (Python `replace("/", "")`), and the dispatched target is
the second token when present, else the empty string; a query without the
prefix is not a command and returns none. -/
def processCommand (query : Str) : Option (Str × Str) :=
  if startsWithChar '/' query then
    let words := splitWs query
    let command := (words.headD []).filter (fun c => !(c == '/'))
    let target := (words.drop 1).headD []
    some (command, target)
  else
    none

/-- C3 counterexample: the command name is computed with Python
`replace("/", "")`, which removes every slash of the first token, not only
the prefix: `/for/mat x` dispatches command name `format`, not `for/mat`. -/
theorem c3_counterexample :
    processCommand (str "/for/mat x") = some (str "format", str "x") ∧
    str "format" ≠ str "for/mat" := by
  exact ⟨by decide, by decide⟩

/-- C3 amended: for a command query the dispatched name is the first
whitespace-delimited token with every slash occurrence removed — equal to the
prefix-stripped token exactly when the remainder contains no further slash —
and the dispatched target is the second token if present, else empty. -/
theorem c3_command_dispatch (q w : Str) (rest : List Str)
    (hq : startsWithChar '/' q = true) (hw : splitWs q = w :: rest) :
    processCommand q = some (w.filter (fun c => !(c == '/')), rest.headD []) ∧
    (∀ w2 : Str, w = '/' :: w2 → '/' ∉ w2 →
      w.filter (fun c => !(c == '/')) = w2) := by
  constructor
  · simp only [processCommand, if_pos hq, hw]
    rfl
  · rintro w2 rfl hw2
    have : List.filter (fun c => !(c == '/')) w2 = w2 := by
      rw [List.filter_eq_self]
      intro a ha
      have : ¬ a = '/' := fun e => hw2 (e ▸ ha)
      simpa using this
    simp [List.filter_cons, this]

/-- C3 witness: `/format meetings/987654321` dispatches command `format` with
target `meetings/987654321`; `/format` alone dispatches target `""`. -/
theorem c3_witness :
    processCommand (str "/format meetings/987654321") =
      some (str "format", str "meetings/987654321") ∧
    processCommand (str "/format") = some (str "format", []) := by
  have h1 := c3_command_dispatch (str "/format meetings/987654321") (str "/format")
    [str "meetings/987654321"] (by decide) (by decide)
  have h2 := c3_command_dispatch (str "/format") (str "/format") [] (by decide) (by decide)
  exact ⟨h1.1.trans (by decide), h2.1.trans (by decide)⟩

/-- Concrete shapes a templated-prompt message content can take, as the
Python dynamic checks discriminate them: a plain string, a mapping-like
block, an object-like block exposing attribute fields, a list of further
values, or anything else (no dict, no attribute record, no list). -/
inductive Content where
  | strContent (s : Str)
  | dictBlock (fields : List (Str × Str))
  | objBlock (attrs : List (Str × Str))
  | listContent (items : List Content)
  | otherContent

/-- Role and content of a templated prompt message (mcp.types.PromptMessage). -/
structure PromptMessage where
  role : Str
  content : Content

/-- An output text block appended by the normalizer list branch: the dict
with keys type and text. -/
structure OutBlock where
  ty : Str
  text : Str
deriving DecidableEq

/-- Content payload of a normalized conversation message. -/
inductive MPContent where
  | text (s : Str)
  | blocks (bs : List OutBlock)
deriving DecidableEq

/-- Normalized conversation message (anthropic.types.MessageParam). -/
structure MessageParam where
  role : Str
  content : MPContent
deriving DecidableEq

/-- Key lookup in a mapping or attribute record; none models an absent key
(the default of Python dict.get and getattr with default None). -/
def lookupField : List (Str × Str) → Str → Option Str
  | [], _ => none
  | p :: rest, key => if p.1 = key then some p.2 else lookupField rest key

/-- Python `isinstance(content, dict) or hasattr(content, "__dict__")`. -/
def isDictLike : Content → Bool
  | .dictBlock _ => true
  | .objBlock _ => true
  | _ => false

/-- Python `content.get("type", None)` or `getattr(content, "type", None)`. -/
def contentTypeOf : Content → Option Str
  | .dictBlock fields => lookupField fields (str "type")
  | .objBlock attrs => lookupField attrs (str "type")
  | _ => none

/-- Python `content.get("text", "")` or `getattr(content, "text", "")`. -/
def contentTextOf : Content → Str
  | .dictBlock fields => (lookupField fields (str "text")).getD []
  | .objBlock attrs => (lookupField attrs (str "text")).getD []
  | _ => []

/-- Body of the text_blocks loop: a list item contributes an output block
exactly when it is dict-like of text kind. -/
def itemToTextBlock (item : Content) : Option OutBlock :=
  if isDictLike item = true ∧ contentTypeOf item = some (str "text") then
    some ⟨str "text", contentTextOf item⟩
  else none

/-- Role conversion of the normalizer: Python
`"user" if prompt_message.role == "user" else "assistant"`. -/
def mapRole (role : Str) : Str :=
  if role = str "user" then str "user" else str "assistant"

/-- Model of `convert_prompt_message_to_message_param` in
src/core/cli_chat.py. -/
def convert_prompt_message_to_message_param (prompt_message : PromptMessage) : MessageParam :=
  let role := mapRole prompt_message.role
  let content := prompt_message.content
  if isDictLike content = true ∧ contentTypeOf content = some (str "text") then
    ⟨role, .text (contentTextOf content)⟩
  else
    match content with
    | .listContent items =>
      let text_blocks := items.filterMap itemToTextBlock
      if text_blocks = [] then ⟨role, .text []⟩ else ⟨role, .blocks text_blocks⟩
    | _ => ⟨role, .text []⟩

/-- Model of `format_document` in src/mcp_server.py: its templated prompt
text, an f-string over the resource type and id. -/
def formatPromptText (resource_type resource_id : Str) : Str :=
  str "\nReformat the Zoom Workplace **" ++ resource_type ++
  str "** item below into clear Markdown for display.\nUse headings, bullet points, and concise sections. Emojis are okay when tasteful.\n\nItem identifier:\n<resource>" ++
  resource_id ++
  str "</resource>\n\nAfter you produce the Markdown, call the \x60edit_zoom_resource\x60 tool to save it back:\n- resource_type = \x22" ++
  resource_type ++ str "\x22\n- resource_id   = \x22" ++ resource_id ++
  str "\x22\n- new_content   = \x7b \x22markdown\x22: \x22<your formatted markdown here>\x22 \x7d\n\nReturn only the formatted Markdown in your assistant reply.\n"

/-- Model of `format_document` in src/mcp_server.py: one user message whose
content is a plain (stripped) string. -/
def format_document (resource_type resource_id : Str) : List PromptMessage :=
  [⟨str "user", .strContent (trim (formatPromptText resource_type resource_id))⟩]

/-- C7 counterexample: a content sequence with no text-kind block does not
normalize to the empty subsequence of text blocks; it normalizes to
empty-string content instead. -/
theorem c7_counterexample :
    convert_prompt_message_to_message_param
        ⟨str "user", .listContent [.dictBlock [(str "type", str "image")]]⟩ =
      ⟨str "user", .text []⟩ ∧
    (⟨str "user", MPContent.text []⟩ : MessageParam) ≠ ⟨str "user", .blocks []⟩ := by
  exact ⟨by decide, by decide⟩

/-- C7 amended: roles collapse to user or assistant; a single text-kind
block normalizes to its text; a block sequence containing at least one
text-kind block normalizes to the ordered subsequence of its text-kind
blocks; a sequence containing none falls back to empty-string content. -/
theorem c7_normalizer_spec (r : Str) (fields : List (Str × Str)) (items : List Content) :
    (∀ c : Content, (convert_prompt_message_to_message_param ⟨r, c⟩).role = mapRole r) ∧
    (lookupField fields (str "type") = some (str "text") →
      convert_prompt_message_to_message_param ⟨r, .dictBlock fields⟩ =
        ⟨mapRole r, .text ((lookupField fields (str "text")).getD [])⟩) ∧
    (items.filterMap itemToTextBlock ≠ [] →
      convert_prompt_message_to_message_param ⟨r, .listContent items⟩ =
        ⟨mapRole r, .blocks (items.filterMap itemToTextBlock)⟩) ∧
    (items.filterMap itemToTextBlock = [] →
      convert_prompt_message_to_message_param ⟨r, .listContent items⟩ =
        ⟨mapRole r, .text []⟩) := by
  refine ⟨?_, ?_, ?_, ?_⟩
  · intro c
    unfold convert_prompt_message_to_message_param
    dsimp only
    split
    · rfl
    · cases c
      · rfl
      · rfl
      · rfl
      · dsimp only; split <;> rfl
      · rfl
  · intro h
    unfold convert_prompt_message_to_message_param
    dsimp only
    rw [if_pos ⟨rfl, by simpa [contentTypeOf] using h⟩]
    rfl
  · intro h
    unfold convert_prompt_message_to_message_param
    dsimp only
    rw [if_neg h, if_neg (by simp [isDictLike])]
  · intro h
    unfold convert_prompt_message_to_message_param
    dsimp only
    rw [if_pos h, if_neg (by simp [isDictLike])]

/-- C7 witness for the amended statement: two text blocks and one non-text
block normalize to exactly the two text blocks, order preserved, and a
single text block normalizes to its text. -/
theorem c7_witness :
    convert_prompt_message_to_message_param
        ⟨str "system", .listContent
          [.dictBlock [(str "type", str "text"), (str "text", str "first")],
           .objBlock [(str "type", str "image")],
           .dictBlock [(str "type", str "text"), (str "text", str "second")]]⟩ =
      ⟨str "assistant",
        .blocks [⟨str "text", str "first"⟩, ⟨str "text", str "second"⟩]⟩ ∧
    convert_prompt_message_to_message_param
        ⟨str "user", .dictBlock [(str "type", str "text"), (str "text", str "hi")]⟩ =
      ⟨str "user", .text (str "hi")⟩ := by
  have h1 := (c7_normalizer_spec (str "system") []
    [.dictBlock [(str "type", str "text"), (str "text", str "first")],
     .objBlock [(str "type", str "image")],
     .dictBlock [(str "type", str "text"), (str "text", str "second")]]).2.2.1 (by decide)
  have h2 := (c7_normalizer_spec (str "user")
    [(str "type", str "text"), (str "text", str "hi")] []).2.1 (by decide)
  exact ⟨h1.trans (by decide), h2.trans (by decide)⟩

theorem itemToTextBlock_repr (fields : List (Str × Str)) :
    itemToTextBlock (.dictBlock fields) = itemToTextBlock (.objBlock fields) := by
  unfold itemToTextBlock
  by_cases h : lookupField fields (str "type") = some (str "text")
  · rw [if_pos ⟨rfl, h⟩, if_pos ⟨rfl, h⟩]
    rfl
  · rw [if_neg, if_neg] <;> simp [contentTypeOf, isDictLike, h]

/-- C8: a mapping-like block and an object-like block exposing the same
named fields normalize to equal conversation messages, both as a message
content on its own and as an element of a content sequence. -/
theorem c8_representation_equiv (r : Str) (fields : List (Str × Str))
    (pre post : List Content) :
    convert_prompt_message_to_message_param ⟨r, .dictBlock fields⟩ =
      convert_prompt_message_to_message_param ⟨r, .objBlock fields⟩ ∧
    convert_prompt_message_to_message_param ⟨r, .listContent (pre ++ .dictBlock fields :: post)⟩ =
      convert_prompt_message_to_message_param ⟨r, .listContent (pre ++ .objBlock fields :: post)⟩ := by
  constructor
  · unfold convert_prompt_message_to_message_param
    dsimp only
    by_cases h : lookupField fields (str "type") = some (str "text")
    · rw [if_pos ⟨rfl, h⟩, if_pos ⟨rfl, h⟩]
      rfl
    · rw [if_neg (by simp [contentTypeOf, isDictLike, h]),
        if_neg (by simp [contentTypeOf, isDictLike, h])]
  · have he : (pre ++ .dictBlock fields :: post).filterMap itemToTextBlock =
        (pre ++ .objBlock fields :: post).filterMap itemToTextBlock := by
      simp [List.filterMap_append, List.filterMap_cons, itemToTextBlock_repr fields]
    unfold convert_prompt_message_to_message_param
    dsimp only
    rw [he]
    simp [isDictLike]

theorem convert_str_content (r s : Str) :
    convert_prompt_message_to_message_param ⟨r, .strContent s⟩ =
      ⟨mapRole r, .text []⟩ := by
  unfold convert_prompt_message_to_message_param
  dsimp only
  rw [if_neg (by simp [isDictLike])]

/-- C10: the normalizer is total with a binary role model: any content that
is neither a recognized single text-kind block nor a sequence contributing a
text-kind block — including the plain-string content produced by the store's
format templated prompt — normalizes to an empty-string content message. -/
theorem c10_normalizer_total (r : Str) (c : Content)
    (h1 : ¬ (isDictLike c = true ∧ contentTypeOf c = some (str "text")))
    (h2 : ∀ items, c = .listContent items → items.filterMap itemToTextBlock = []) :
    convert_prompt_message_to_message_param ⟨r, c⟩ = ⟨mapRole r, .text []⟩ ∧
    ((convert_prompt_message_to_message_param ⟨r, c⟩).role = str "user" ∨
      (convert_prompt_message_to_message_param ⟨r, c⟩).role = str "assistant") ∧
    (∀ rt rid : Str, ∀ m ∈ format_document rt rid,
      convert_prompt_message_to_message_param m = ⟨str "user", .text []⟩) := by
  have hmain : convert_prompt_message_to_message_param ⟨r, c⟩ = ⟨mapRole r, .text []⟩ := by
    unfold convert_prompt_message_to_message_param
    dsimp only
    rw [if_neg h1]
    cases c with
    | listContent items =>
      dsimp only
      rw [if_pos (h2 items rfl)]
    | strContent s => rfl
    | dictBlock fields => rfl
    | objBlock attrs => rfl
    | otherContent => rfl
  refine ⟨hmain, ?_, ?_⟩
  · rw [hmain]
    unfold mapRole
    dsimp only
    split
    · exact Or.inl rfl
    · exact Or.inr rfl
  · intro rt rid m hm
    simp only [format_document, List.mem_singleton] at hm
    subst hm
    rw [convert_str_content]
    rfl

/-- C10 witness: a non-user role with plain-string content normalizes to an
assistant message with empty content. -/
theorem c10_witness :
    convert_prompt_message_to_message_param ⟨str "tool", .strContent (str "x")⟩ =
      ⟨str "assistant", .text []⟩ := by
  have h := c10_normalizer_total (str "tool") (.strContent (str "x")) (by decide)
    (fun items h => nomatch h)
  exact h.1.trans (by decide)

/-- Lexicographic comparison of character lists, the order Python `sorted`
uses on strings. -/
def strLeB : Str → Str → Bool
  | [], _ => true
  | _ :: _, [] => false
  | a :: as, b :: bs => if a < b then true else if b < a then false else strLeB as bs

/-- Propositional form of `strLeB`. -/
def strLe (a b : Str) : Prop := strLeB a b = true

instance : DecidableRel strLe := fun a b => instDecidableEqBool (strLeB a b) true

theorem strLeB_total (a : Str) : ∀ b, strLeB a b = true ∨ strLeB b a = true := by
  induction a with
  | nil => intro b; exact Or.inl rfl
  | cons x as ih =>
    intro b
    cases b with
    | nil => exact Or.inr rfl
    | cons y bs =>
      rcases lt_trichotomy x y with h | h | h
      · exact Or.inl (by simp [strLeB, h])
      · subst h
        rcases ih bs with h2 | h2
        · exact Or.inl (by simp [strLeB, h2])
        · exact Or.inr (by simp [strLeB, h2])
      · exact Or.inr (by simp [strLeB, h])

theorem strLeB_trans (a : Str) :
    ∀ b c, strLeB a b = true → strLeB b c = true → strLeB a c = true := by
  induction a with
  | nil => intro b c _ _; rfl
  | cons x as ih =>
    intro b c h1 h2
    cases b with
    | nil => simp [strLeB] at h1
    | cons y bs =>
      cases c with
      | nil => simp [strLeB] at h2
      | cons z cs =>
        rcases lt_trichotomy x y with hxy | hxy | hxy
        · rcases lt_trichotomy y z with hyz | hyz | hyz
          · simp [strLeB, lt_trans hxy hyz]
          · subst hyz
            simp [strLeB, hxy]
          · simp [strLeB, hyz, not_lt_of_lt hyz] at h2
        · subst hxy
          rcases lt_trichotomy x z with hxz | hxz | hxz
          · simp [strLeB, hxz]
          · subst hxz
            simp only [strLeB, lt_irrefl, if_false] at h1 h2 ⊢
            exact ih bs cs h1 h2
          · simp [strLeB, hxz, not_lt_of_lt hxz] at h2
        · simp [strLeB, hxy, not_lt_of_lt hxy] at h1

instance : IsTotal Str strLe := ⟨fun a b => strLeB_total a b⟩

instance : IsTrans Str strLe := ⟨fun a b c h1 h2 => strLeB_trans a b c h1 h2⟩

/-- Model of `CliChat.list_docs_ids` in src/core/cli_chat.py: flatten the
store's type-to-ids mapping into `type/id` strings and sort them
(Python `sorted(flat, key=str)`). -/
def list_docs_ids (mapping : List (Str × List Str)) : List Str :=
  let flat := mapping.flatMap (fun p => p.2.map (fun rid => p.1 ++ '/' :: rid))
  List.insertionSort strLe flat

/-- Rendered composite identifiers are injective when types are
separator-free. -/
theorem render_inj (t1 i1 t2 i2 : Str) (h1 : '/' ∉ t1) (h2 : '/' ∉ t2)
    (he : t1 ++ '/' :: i1 = t2 ++ '/' :: i2) : t1 = t2 ∧ i1 = i2 := by
  induction t1 generalizing t2 with
  | nil =>
    cases t2 with
    | nil => simpa using he
    | cons y t2 =>
      simp at he
      exact absurd (by rw [he.1]; exact List.mem_cons_self y t2) h2
  | cons x t1 ih =>
    cases t2 with
    | nil =>
      simp at he
      exact absurd (by rw [← he.1]; exact List.mem_cons_self x t1) h1
    | cons y t2 =>
      simp at he
      obtain ⟨hxy, hrest⟩ := he
      have hx1 : '/' ∉ t1 := fun m => h1 (List.mem_cons_of_mem x m)
      have hy2 : '/' ∉ t2 := fun m => h2 (List.mem_cons_of_mem y m)
      obtain ⟨e1, e2⟩ := ih t2 hx1 hy2 hrest
      exact ⟨by rw [hxy, e1], e2⟩

/-- C9: `list_docs_ids` returns exactly the flattened rendering of the
store-provided type-to-ids mapping, lexicographically sorted; under the
spec's data-model invariants — distinct types, separator-free type names,
duplicate-free id sets — the result has no duplicates. -/
theorem c9_list_docs_ids_spec (mapping : List (Str × List Str))
    (h1 : ∀ p ∈ mapping, '/' ∉ p.1)
    (h2 : (mapping.map Prod.fst).Nodup)
    (h3 : ∀ p ∈ mapping, p.2.Nodup) :
    (list_docs_ids mapping).Perm
      (mapping.flatMap (fun p => p.2.map (fun rid => p.1 ++ '/' :: rid))) ∧
    List.Sorted strLe (list_docs_ids mapping) ∧
    (list_docs_ids mapping).Nodup := by
  have hperm := List.perm_insertionSort strLe
    (mapping.flatMap (fun p => p.2.map (fun rid => p.1 ++ '/' :: rid)))
  refine ⟨hperm, List.sorted_insertionSort strLe _, ?_⟩
  have hflat : (mapping.flatMap (fun p => p.2.map (fun rid => p.1 ++ '/' :: rid))).Nodup := by
    rw [List.nodup_flatMap]
    constructor
    · intro p hp
      refine List.Nodup.map ?_ (h3 p hp)
      intro i1 i2 hi
      have := (List.append_right_inj p.1).mp hi
      simpa using this
    · have hp : List.Pairwise (fun p q : Str × List Str => p.1 ≠ q.1) mapping :=
        List.pairwise_map.mp h2
      refine hp.imp_of_mem ?_
      intro p q hpmem hqmem hne a hap haq
      obtain ⟨i1, _, he1⟩ := List.mem_map.mp hap
      obtain ⟨i2, _, he2⟩ := List.mem_map.mp haq
      exact hne (render_inj p.1 i1 q.1 i2 (h1 p hpmem) (h1 q hqmem)
        (he1.trans he2.symm)).1
  exact hperm.nodup_iff.mpr hflat

/-- Listing of the mock Zoom Workplace store in src/mcp_server.py, as the
resource `res://resources` reports it: per-type sorted id lists. -/
def zoomListing : List (Str × List Str) :=
  [(str "meetings", [str "123456789", str "987654321"]),
   (str "team_chat", [str "msg_1001", str "msg_1002"]),
   (str "mail", [str "email_2001"]),
   (str "calendar", [str "event_3001"])]

/-- C9 witness: the mock store listing satisfies the data-model invariants
and its flattened rendering is returned sorted and duplicate-free. -/
theorem c9_witness :
    (∀ p ∈ zoomListing, '/' ∉ p.1) ∧
    ((zoomListing.map Prod.fst).Nodup ∧ ∀ p ∈ zoomListing, p.2.Nodup) ∧
    ((list_docs_ids zoomListing).Perm
        (zoomListing.flatMap (fun p => p.2.map (fun rid => p.1 ++ '/' :: rid))) ∧
      List.Sorted strLe (list_docs_ids zoomListing) ∧
      (list_docs_ids zoomListing).Nodup) :=
  ⟨by decide, ⟨by decide, by decide⟩,
    c9_list_docs_ids_spec zoomListing (by decide) (by decide) (by decide)⟩

/-- External resource store as the doc client exposes it to CliChat: the
type-to-ids mapping behind `res://resources` and the per-type per-id read
behind `res://resources/.../...`; a read of an absent item is an error. -/
structure Store (Doc : Type) where
  listing : List (Str × List Str)
  readItem : Str → Str → Except Str Doc

/-- Model of `CliChat.get_doc_content`: parse the combined id, then read the
addressed item from the store. -/
def getDocContent {Doc : Type} (st : Store Doc) (doc_id : Str) : Except Str Doc :=
  match splitResourcePath doc_id with
  | .ok p => st.readItem p.1 p.2
  | .error e => .error e

/-- Mention harvesting of `_extract_resources`:
Python `[word[1:] for word in query.split() if word.startswith("@")]`. -/
def mentionsOf (query : Str) : List Str :=
  (splitWs query).filterMap (fun word =>
    if startsWithChar '@' word then some (word.drop 1) else none)

/-- Normalization of one mention in `_extract_resources`: a candidate
containing a colon is parsed and rejoined with the canonical slash; others
pass through unchanged. -/
def normalizeMention (m : Str) : Except Str Str :=
  if ':' ∈ m then
    match splitResourcePath m with
    | .ok p => .ok (p.1 ++ '/' :: p.2)
    | .error e => .error e
  else .ok m

/-- The normalization loop of `_extract_resources` over all mentions. -/
def normalizeMentions : List Str → Except Str (List Str)
  | [] => .ok []
  | m :: ms =>
    match normalizeMention m with
    | .error e => .error e
    | .ok n =>
      match normalizeMentions ms with
      | .error e => .error e
      | .ok ns => .ok (n :: ns)

/-- Total form of mention normalization; `normalizeMention` never fails. -/
def normalizeMentionP (m : Str) : Str :=
  match normalizeMention m with
  | .ok n => n
  | .error _ => m

/-- One tagged block of the inlined fragment built by `_extract_resources`. -/
def renderBlock {Doc : Type} (ser : Doc → Str) (doc_id : Str) (content : Doc) : Str :=
  str "\n<resource id=\x22" ++ doc_id ++ str "\x22>\n" ++ ser content ++ str "\n</resource>\n"

/-- The fetch loop of `_extract_resources`: pull each normalized mention
that exists in the index, in order, collecting (id, content) pairs. -/
def fetchMentioned {Doc : Type} (st : Store Doc) (allIds : List Str) :
    List Str → Except Str (List (Str × Doc))
  | [] => .ok []
  | d :: ds =>
    if d ∈ allIds then
      match getDocContent st d with
      | .error e => .error e
      | .ok c =>
        match fetchMentioned st allIds ds with
        | .error e => .error e
        | .ok rest => .ok ((d, c) :: rest)
    else fetchMentioned st allIds ds

/-- Model of `CliChat._extract_resources` in src/core/cli_chat.py; the
serializer argument models the Python f-string conversion of a document. -/
def extractResources {Doc : Type} (st : Store Doc) (ser : Doc → Str) (query : Str) :
    Except Str Str :=
  match normalizeMentions (mentionsOf query) with
  | .error e => .error e
  | .ok normalized =>
    match fetchMentioned st (list_docs_ids st.listing) normalized with
    | .error e => .error e
    | .ok docs => .ok ((docs.map (fun p => renderBlock ser p.1 p.2)).flatten)

/-- Mentions a query resolves against a store: normalized mentions retained
by the index filter, in query order, with multiplicity. -/
def resolvedMentionsOf {Doc : Type} (st : Store Doc) (query : Str) : List Str :=
  ((mentionsOf query).map normalizeMentionP).filter
    (fun d => decide (d ∈ list_docs_ids st.listing))

theorem normalizeMention_ex (m : Str) : ∃ n, normalizeMention m = .ok n := by
  unfold normalizeMention
  by_cases hc : ':' ∈ m
  · rw [if_pos hc]
    by_cases hs : '/' ∈ m
    · simp [splitResourcePath, hs]
    · simp [splitResourcePath, hs, hc]
  · rw [if_neg hc]
    exact ⟨m, rfl⟩

theorem normalizeMention_ok (m : Str) :
    normalizeMention m = .ok (normalizeMentionP m) := by
  obtain ⟨n, hn⟩ := normalizeMention_ex m
  unfold normalizeMentionP
  rw [hn]

theorem normalizeMentions_ok (ms : List Str) :
    normalizeMentions ms = .ok (ms.map normalizeMentionP) := by
  induction ms with
  | nil => rfl
  | cons m ms ih =>
    unfold normalizeMentions
    rw [normalizeMention_ok m, ih]
    rfl

theorem mentionsOf_no_ws (q : Str) :
    ∀ m ∈ mentionsOf q, ∀ c ∈ m, c.isWhitespace = false := by
  intro m hm c hc
  obtain ⟨w, hw, he⟩ := List.mem_filterMap.mp hm
  by_cases hs : startsWithChar '@' w = true
  · rw [if_pos hs] at he
    have hmw : m = w.drop 1 := by simpa using he.symm
    exact (splitWs_tokens q w hw).2 c (List.drop_subset 1 w (hmw ▸ hc))
  · rw [if_neg hs] at he
    cases he

theorem splitFirst_subset (ch : Char) (l : Str) :
    (∀ c ∈ (splitFirst ch l).1, c ∈ l) ∧ (∀ c ∈ (splitFirst ch l).2, c ∈ l) := by
  induction l with
  | nil => simp [splitFirst]
  | cons x xs ih =>
    by_cases hx : x = ch
    · constructor <;> intro c hc
      · simp [splitFirst, hx] at hc
      · simp only [splitFirst, if_pos hx] at hc
        exact List.mem_cons_of_mem x hc
    · constructor <;> intro c hc
      · simp only [splitFirst, if_neg hx] at hc
        rcases List.mem_cons.mp hc with e | m
        · rw [e]; exact List.mem_cons_self x xs
        · exact List.mem_cons_of_mem x (ih.1 c m)
      · simp only [splitFirst, if_neg hx] at hc
        exact List.mem_cons_of_mem x (ih.2 c hc)

theorem splitResourcePath_ok_subset (s t i : Str)
    (h : splitResourcePath s = .ok (t, i)) :
    (∀ c ∈ t, c ∈ s) ∧ (∀ c ∈ i, c ∈ s) := by
  unfold splitResourcePath at h
  by_cases h1 : '/' ∈ s
  · rw [if_pos h1] at h
    simp only [Except.ok.injEq, Prod.mk.injEq] at h
    obtain ⟨ht, hi⟩ := h
    subst ht; subst hi
    exact ⟨fun c hc => (splitFirst_subset '/' s).1 c (trim_subset _ c hc),
      fun c hc => (splitFirst_subset '/' s).2 c (trim_subset _ c hc)⟩
  · rw [if_neg h1] at h
    by_cases h2 : ':' ∈ s
    · rw [if_pos h2] at h
      simp only [Except.ok.injEq, Prod.mk.injEq] at h
      obtain ⟨ht, hi⟩ := h
      subst ht; subst hi
      exact ⟨fun c hc => (splitFirst_subset ':' s).1 c (trim_subset _ c hc),
        fun c hc => (splitFirst_subset ':' s).2 c (trim_subset _ c hc)⟩
    · rw [if_neg h2] at h
      cases h

theorem normalizeMentionP_cases (m : Str) :
    normalizeMentionP m = m ∨
    ∃ p1 p2, splitResourcePath m = .ok (p1, p2) ∧
      normalizeMentionP m = p1 ++ '/' :: p2 := by
  unfold normalizeMentionP normalizeMention
  by_cases hc : ':' ∈ m
  · rw [if_pos hc]
    by_cases hs : '/' ∈ m
    · refine Or.inr ⟨trim (splitFirst '/' m).1, trim (splitFirst '/' m).2, ?_, ?_⟩
      · simp [splitResourcePath, hs]
      · simp [splitResourcePath, hs]
    · refine Or.inr ⟨trim (splitFirst ':' m).1, trim (splitFirst ':' m).2, ?_, ?_⟩
      · simp [splitResourcePath, hs, hc]
      · simp [splitResourcePath, hs, hc]
  · rw [if_neg hc]
    exact Or.inl rfl

theorem normalizeMentionP_no_ws (m : Str) (h : ∀ c ∈ m, c.isWhitespace = false) :
    ∀ c ∈ normalizeMentionP m, c.isWhitespace = false := by
  rcases normalizeMentionP_cases m with he | ⟨p1, p2, hsp, he⟩
  · rw [he]; exact h
  · rw [he]
    intro c hc
    rcases List.mem_append.mp hc with h1 | h2
    · exact h c ((splitResourcePath_ok_subset m p1 p2 hsp).1 c h1)
    · rcases List.mem_cons.mp h2 with e | h3
      · rw [e]; decide
      · exact h c ((splitResourcePath_ok_subset m p1 p2 hsp).2 c h3)

theorem mem_list_docs_ids (mapping : List (Str × List Str)) (d : Str) :
    d ∈ list_docs_ids mapping ↔ ∃ p ∈ mapping, ∃ i ∈ p.2, d = p.1 ++ '/' :: i := by
  unfold list_docs_ids
  constructor
  · intro hd
    obtain ⟨p, hp, hdm⟩ :=
      List.mem_flatMap.mp ((List.perm_insertionSort strLe _).mem_iff.mp hd)
    obtain ⟨i, hi, he⟩ := List.mem_map.mp hdm
    exact ⟨p, hp, i, hi, he.symm⟩
  · rintro ⟨p, hp, i, hi, rfl⟩
    exact (List.perm_insertionSort strLe _).mem_iff.mpr
      (List.mem_flatMap.mpr ⟨p, hp, List.mem_map.mpr ⟨i, hi, rfl⟩⟩)

theorem mem_list_docs_ids_slash (mapping : List (Str × List Str)) (d : Str)
    (hd : d ∈ list_docs_ids mapping) : '/' ∈ d := by
  obtain ⟨p, _, i, _, rfl⟩ := (mem_list_docs_ids mapping d).mp hd
  simp

theorem getDocContent_ok {Doc : Type} (st : Store Doc)
    (hSlash : ∀ p ∈ st.listing, '/' ∉ p.1)
    (hCoh : ∀ p ∈ st.listing, ∀ i ∈ p.2, isOkE (st.readItem p.1 i) = true)
    (d : Str) (hws : ∀ c ∈ d, c.isWhitespace = false)
    (hd : d ∈ list_docs_ids st.listing) :
    ∃ doc, getDocContent st d = .ok doc := by
  obtain ⟨p, hp, i, hi, rfl⟩ := (mem_list_docs_ids st.listing d).mp hd
  have hsp : splitResourcePath (p.1 ++ '/' :: i) = .ok (trim p.1, trim i) :=
    splitResourcePath_slash p.1 i (hSlash p hp)
  have ht1 : trim p.1 = p.1 :=
    trim_of_no_ws p.1 (fun c hc => hws c (List.mem_append.mpr (Or.inl hc)))
  have ht2 : trim i = i :=
    trim_of_no_ws i
      (fun c hc => hws c (List.mem_append.mpr (Or.inr (List.mem_cons_of_mem _ hc))))
  obtain ⟨doc, hdoc⟩ := (isOkE_iff (st.readItem p.1 i)).mp (hCoh p hp i hi)
  refine ⟨doc, ?_⟩
  unfold getDocContent
  rw [hsp]
  show st.readItem (trim p.1) (trim i) = .ok doc
  rw [ht1, ht2]
  exact hdoc

theorem fetchMentioned_spec {Doc : Type} (st : Store Doc)
    (hSlash : ∀ p ∈ st.listing, '/' ∉ p.1)
    (hCoh : ∀ p ∈ st.listing, ∀ i ∈ p.2, isOkE (st.readItem p.1 i) = true) :
    ∀ ns : List Str, (∀ n ∈ ns, ∀ c ∈ n, c.isWhitespace = false) →
    ∃ docs : List (Str × Doc),
      fetchMentioned st (list_docs_ids st.listing) ns = .ok docs ∧
      docs.map Prod.fst = ns.filter (fun d => decide (d ∈ list_docs_ids st.listing)) ∧
      ∀ p ∈ docs, getDocContent st p.1 = .ok p.2 := by
  intro ns
  induction ns with
  | nil => intro _; exact ⟨[], rfl, rfl, by simp⟩
  | cons d ds ih =>
    intro hws
    obtain ⟨docs, h1, h2, h3⟩ := ih (fun n hn => hws n (List.mem_cons_of_mem d hn))
    by_cases hd : d ∈ list_docs_ids st.listing
    · obtain ⟨doc, hdoc⟩ :=
        getDocContent_ok st hSlash hCoh d (hws d (List.mem_cons_self d ds)) hd
      refine ⟨(d, doc) :: docs, ?_, ?_, ?_⟩
      · unfold fetchMentioned
        rw [if_pos hd, hdoc, h1]
      · simp [List.filter_cons, hd, h2]
      · intro p hp
        rcases List.mem_cons.mp hp with e | m
        · rw [e]; exact hdoc
        · exact h3 p m
    · refine ⟨docs, ?_, ?_, h3⟩
      · unfold fetchMentioned
        rw [if_neg hd]
        exact h1
      · simp [List.filter_cons, hd, h2]

/-- Core behavior of the Mention Extractor, shared by the claims about it. -/
theorem extractResources_spec {Doc : Type} (st : Store Doc) (ser : Doc → Str) (query : Str)
    (hSlash : ∀ p ∈ st.listing, '/' ∉ p.1)
    (hCoh : ∀ p ∈ st.listing, ∀ i ∈ p.2, isOkE (st.readItem p.1 i) = true) :
    ∃ docs : List (Str × Doc),
      extractResources st ser query =
        .ok ((docs.map (fun p => renderBlock ser p.1 p.2)).flatten) ∧
      docs.map Prod.fst = resolvedMentionsOf st query ∧
      (∀ p ∈ docs, getDocContent st p.1 = .ok p.2) ∧
      (resolvedMentionsOf st query = [] → extractResources st ser query = .ok []) := by
  have hws : ∀ n ∈ (mentionsOf query).map normalizeMentionP,
      ∀ c ∈ n, c.isWhitespace = false := by
    intro n hn
    obtain ⟨m, hm, rfl⟩ := List.mem_map.mp hn
    exact normalizeMentionP_no_ws m (mentionsOf_no_ws query m hm)
  obtain ⟨docs, h1, h2, h3⟩ :=
    fetchMentioned_spec st hSlash hCoh ((mentionsOf query).map normalizeMentionP) hws
  have hext : extractResources st ser query =
      .ok ((docs.map (fun p => renderBlock ser p.1 p.2)).flatten) := by
    unfold extractResources
    rw [normalizeMentions_ok]
    dsimp only
    rw [h1]
  refine ⟨docs, hext, h2, h3, ?_⟩
  intro hres
  have hdocs : docs = [] := List.map_eq_nil_iff.mp (h2.trans hres)
  rw [hdocs] at hext
  simpa using hext

/-- C1: with a store whose index is fetchable (separator-free type names,
readable listed items), the Mention Extractor fetches one Document per
retained mention occurrence, in first-occurrence query order and with
duplicates preserved, and returns the concatenation of one tagged block per
resolved mention — the empty string when none resolve. -/
theorem c1_extract_resources_order {Doc : Type} (st : Store Doc) (ser : Doc → Str)
    (query : Str)
    (hSlash : ∀ p ∈ st.listing, '/' ∉ p.1)
    (hCoh : ∀ p ∈ st.listing, ∀ i ∈ p.2, isOkE (st.readItem p.1 i) = true) :
    ∃ docs : List (Str × Doc),
      extractResources st ser query =
        .ok ((docs.map (fun p => renderBlock ser p.1 p.2)).flatten) ∧
      docs.map Prod.fst = resolvedMentionsOf st query ∧
      (∀ p ∈ docs, getDocContent st p.1 = .ok p.2) ∧
      (resolvedMentionsOf st query = [] → extractResources st ser query = .ok []) :=
  extractResources_spec st ser query hSlash hCoh

/-- Read function of the mock Zoom Workplace store: listed items read back a
canonical document, anything else is a not-found error. -/
def zoomRead (t i : Str) : Except Str Str :=
  if (t, i) ∈ zoomListing.flatMap (fun p => p.2.map (fun i2 => (p.1, i2))) then
    .ok (str "doc:" ++ t ++ '/' :: i)
  else
    .error (str "not found")

/-- The mock Zoom Workplace store of src/mcp_server.py, with documents
already serialized. -/
def zoomStore : Store Str := ⟨zoomListing, zoomRead⟩

/-- C1 witness: a query mentioning the same meeting twice against the mock
store satisfies the hypotheses and yields duplicate fetches and blocks. -/
theorem c1_witness :
    (∀ p ∈ zoomStore.listing, '/' ∉ p.1) ∧
    (∀ p ∈ zoomStore.listing, ∀ i ∈ p.2, isOkE (zoomStore.readItem p.1 i) = true) ∧
    ∃ docs : List (Str × Str),
      extractResources zoomStore (fun d => d)
          (str "recap @meetings/987654321 and @meetings/987654321") =
        .ok ((docs.map (fun p => renderBlock (fun d => d) p.1 p.2)).flatten) ∧
      docs.map Prod.fst = resolvedMentionsOf zoomStore
        (str "recap @meetings/987654321 and @meetings/987654321") ∧
      (∀ p ∈ docs, getDocContent zoomStore p.1 = .ok p.2) ∧
      (resolvedMentionsOf zoomStore
          (str "recap @meetings/987654321 and @meetings/987654321") = [] →
        extractResources zoomStore (fun d => d)
          (str "recap @meetings/987654321 and @meetings/987654321") = .ok []) :=
  ⟨by decide, by decide,
    c1_extract_resources_order zoomStore (fun d => d)
      (str "recap @meetings/987654321 and @meetings/987654321") (by decide) (by decide)⟩

/-- C4 counterexample: a mention with no recognized separator does not abort
the query turn — extraction succeeds and merely inlines nothing. -/
theorem c4_counterexample :
    extractResources zoomStore (fun d => d) (str "tell me about @badmention") =
      .ok [] := by decide

/-- C4 amended: the core never aborts a turn on a malformed address: the
extractor always succeeds (every resolved mention contains the canonical
separator, so a separator-free mention is silently dropped exactly like an
unresolvable one), and the dispatcher handles every prefixed query without
inspecting its target. -/
theorem c4_no_abort (Doc : Type) (st : Store Doc) (ser : Doc → Str) (query : Str)
    (hSlash : ∀ p ∈ st.listing, '/' ∉ p.1)
    (hCoh : ∀ p ∈ st.listing, ∀ i ∈ p.2, isOkE (st.readItem p.1 i) = true) :
    (∃ out, extractResources st ser query = .ok out) ∧
    (∀ m ∈ resolvedMentionsOf st query, '/' ∈ m) ∧
    (∀ q2 : Str, startsWithChar '/' q2 = true → (processCommand q2).isSome = true) := by
  obtain ⟨docs, h1, _, _, _⟩ := extractResources_spec st ser query hSlash hCoh
  refine ⟨⟨_, h1⟩, ?_, ?_⟩
  · intro m hm
    have := List.mem_filter.mp hm
    exact mem_list_docs_ids_slash st.listing m (of_decide_eq_true this.2)
  · intro q2 h
    unfold processCommand
    rw [if_pos h]
    rfl

/-- C4 witness: against the mock store, a query with a separator-free
mention extracts successfully, resolved mentions always carry a slash, and a
concrete command query is dispatched. -/
theorem c4_witness :
    (∀ p ∈ zoomStore.listing, '/' ∉ p.1) ∧
    (∀ p ∈ zoomStore.listing, ∀ i ∈ p.2, isOkE (zoomStore.readItem p.1 i) = true) ∧
    ((∃ out, extractResources zoomStore (fun d => d)
        (str "tell me about @badmention") = .ok out) ∧
      (∀ m ∈ resolvedMentionsOf zoomStore (str "tell me about @badmention"), '/' ∈ m) ∧
      (∀ q2 : Str, startsWithChar '/' q2 = true → (processCommand q2).isSome = true)) :=
  ⟨by decide, by decide,
    c4_no_abort Str zoomStore (fun d => d) (str "tell me about @badmention")
      (by decide) (by decide)⟩

/-- C6: a colon-form mention whose type and id are separator-free resolves
exactly as the corresponding slash-form mention: the extractor returns the
same inlined result for the two queries, for every store (in particular
whenever the slash form is present in the index). -/
theorem c6_colon_slash_equiv {Doc : Type} (st : Store Doc) (ser : Doc → Str)
    (q1 q2 t i : Str) (pre post : List Str)
    (h1 : mentionsOf q1 = pre ++ (t ++ ':' :: i) :: post)
    (h2 : mentionsOf q2 = pre ++ (t ++ '/' :: i) :: post)
    (ht : '/' ∉ t) (hi : '/' ∉ i) (ht2 : ':' ∉ t) :
    extractResources st ser q1 = extractResources st ser q2 := by
  have hw1 : ∀ c ∈ t ++ ':' :: i, c.isWhitespace = false := by
    have hmem : (t ++ ':' :: i) ∈ mentionsOf q1 := by
      rw [h1]
      simp
    exact mentionsOf_no_ws q1 _ hmem
  have hwt : ∀ c ∈ t, c.isWhitespace = false :=
    fun c hc => hw1 c (List.mem_append.mpr (Or.inl hc))
  have hwi : ∀ c ∈ i, c.isWhitespace = false :=
    fun c hc => hw1 c (List.mem_append.mpr (Or.inr (List.mem_cons_of_mem _ hc)))
  have htr1 : trim t = t := trim_of_no_ws t hwt
  have htr2 : trim i = i := trim_of_no_ws i hwi
  have hcolon : normalizeMentionP (t ++ ':' :: i) = t ++ '/' :: i := by
    have hc : ':' ∈ t ++ ':' :: i := by simp
    have hsp : splitResourcePath (t ++ ':' :: i) = .ok (trim t, trim i) :=
      splitResourcePath_colon t i ht hi ht2
    unfold normalizeMentionP normalizeMention
    rw [if_pos hc, hsp, htr1, htr2]
  have hslash : normalizeMentionP (t ++ '/' :: i) = t ++ '/' :: i := by
    by_cases hc : ':' ∈ t ++ '/' :: i
    · have hsp : splitResourcePath (t ++ '/' :: i) = .ok (trim t, trim i) :=
        splitResourcePath_slash t i ht
      unfold normalizeMentionP normalizeMention
      rw [if_pos hc, hsp, htr1, htr2]
    · unfold normalizeMentionP normalizeMention
      rw [if_neg hc]
  have hmaps : (mentionsOf q1).map normalizeMentionP =
      (mentionsOf q2).map normalizeMentionP := by
    rw [h1, h2]
    simp [hcolon, hslash]
  unfold extractResources
  rw [normalizeMentions_ok, normalizeMentions_ok, hmaps]

/-- C6 witness: `@meetings:987654321` and `@meetings/987654321` inline
identically against the mock store, which holds `meetings/987654321`. -/
theorem c6_witness :
    extractResources zoomStore (fun d => d) (str "show @meetings:987654321 now") =
      extractResources zoomStore (fun d => d) (str "show @meetings/987654321 now") :=
  c6_colon_slash_equiv zoomStore (fun d => d)
    (str "show @meetings:987654321 now") (str "show @meetings/987654321 now")
    (str "meetings") (str "987654321") [] []
    (by decide) (by decide) (by decide) (by decide) (by decide)
